import Mathlib

/-!
Shallow embedding of the RNA mutual-information (evolutionary coupling) pipeline
of this repository, covering:
  * `src/src/analysis/mutual_information.py`
      (`get_adaptive_pseudocount`, `calculate_mutual_information`)
  * `src/src/analysis/rna_mi_pipeline/enhanced_mi.py`
      (`filter_rna_msa`, `calculate_sequence_weights`, `load_msa_robust`,
       `calculate_mutual_information_enhanced`, `apply_rna_apc_correction`,
       `chunk_and_analyze_rna`)

Sequences are `List Char`; probabilities and matrix entries are `ℝ` (the source
computes with floats; we use exact reals, `Real.logb 2` for `np.log2` and
`Real.log` for `np.log`).  Matrices of size `n × n` are total functions
`ℕ → ℕ → ℝ` that are `0` outside `[0, n) × [0, n)`, mirroring `np.zeros((n, n))`
initialisation.  Wall-clock timeouts, logging and file-system access are not
modelled (they do not affect the values the claims are about).
-/

namespace RnaMI

/-- The 13-character allowed set of `mutual_information.py`
(`['A','C','G','U','T','-','N','a','c','g','u','t','n']`). -/
def allowedChars : Finset Char :=
  {'A', 'C', 'G', 'U', 'T', '-', 'N', 'a', 'c', 'g', 'u', 't', 'n'}

/-- `alphabet_size = len(allowed_chars)` of `mutual_information.py`. -/
def alphabetSize : ℕ := allowedChars.card

/-- The 7-character RNA alphabet of `enhanced_mi.py`
(`['A','C','G','U','T','-','N']`). -/
def rnaAlphabet : Finset Char :=
  {'A', 'C', 'G', 'U', 'T', '-', 'N'}

/-- `get_adaptive_pseudocount` (identical in both modules): `0.5` for at most 25
sequences, `0.2` for at most 100, else `0.0`. -/
def get_adaptive_pseudocount (msa : List (List Char)) : ℚ :=
  if msa.length ≤ 25 then 1 / 2
  else if msa.length ≤ 100 then 1 / 5
  else 0

/-- Column `i` of the alignment (`msa_array[:, i]` resp. `[seq[i] for seq in
msa_sequences]`).  The source assumes uniform sequence lengths; out-of-range
positions yield the placeholder `'?'`, which is outside both alphabets. -/
def column (msa : List (List Char)) (i : ℕ) : List Char :=
  msa.map fun s => s.getD i '?'

/-! ### `calculate_sequence_weights` (enhanced_mi.py lines 523-593)

The source processes rows in batches of 500 purely to bound memory; the weight
of row `i` is in every batch computed by comparing row `i` against all rows
`j ≠ i`, so the batching is index-wise the identity and is embedded as one pass.
-/

/-- Whether two rows count as similar: over positions `k < min(len_i, len_j)`
count jointly non-gap positions and matches among them; similar when there is at
least one non-gap position and `matches / non_gaps > threshold`. -/
def pairSimilar (si sj : List Char) (thr : ℚ) : Bool :=
  let ks := List.range (min si.length sj.length)
  let nonGaps := (ks.filter fun k => si.getD k '-' ≠ '-' ∧ sj.getD k '-' ≠ '-').length
  let matchCnt := (ks.filter fun k =>
    si.getD k '-' ≠ '-' ∧ sj.getD k '-' ≠ '-' ∧ si.getD k '-' = sj.getD k '-').length
  if 0 < nonGaps then decide (thr < (matchCnt : ℚ) / nonGaps) else false

/-- Number of other rows similar to row `i` (`similar_count`). -/
def similarCount (sequences : List (List Char)) (thr : ℚ) (i : ℕ) : ℕ :=
  ((List.range sequences.length).filter fun j =>
    j ≠ i ∧ pairSimilar (sequences.getD i []) (sequences.getD j []) thr).length

/-- `calculate_sequence_weights(sequences, similarity_threshold)`: weight
`1/(similar_count+1)` (kept at the initial `1.0` when `similar_count = 0`),
normalised to sum `1`, with uniform `1/n` fallback when the sum is not
positive. -/
def calculate_sequence_weights (sequences : List (List Char)) (thr : ℚ) : List ℚ :=
  if sequences = [] then []
  else
    let n := sequences.length
    let raw : List ℚ := (List.range n).map fun i =>
      let sc := similarCount sequences thr i
      if 0 < sc then 1 / (sc + 1) else 1
    let s := raw.sum
    if 0 < s then raw.map (· / s) else List.replicate n (1 / (n : ℚ))

/-! ### `filter_rna_msa` (enhanced_mi.py lines 199-287) -/

/-- Default headers `seq_0, seq_1, ...` created when none are supplied. -/
def defaultHeaders (n : ℕ) : List String :=
  (List.range n).map fun i => "seq_" ++ toString i

/-- Step 1 of `filter_rna_msa`: indices of rows whose gap fraction
`seq.count('-') / len(seq)` is at most `gap_threshold`.  (The source would
divide by zero on an empty row; `ℚ` division by `0` yields `0` here.) -/
def gapKeptIdx (msa : List (List Char)) (gapTh : ℚ) : List ℕ :=
  (List.range msa.length).filter fun i =>
    let s := msa.getD i []
    decide (((s.count '-' : ℚ)) / (s.length : ℚ) ≤ gapTh)

/-- The rows surviving step 1. -/
def gapFilteredSeqs (msa : List (List Char)) (gapTh : ℚ) : List (List Char) :=
  (gapKeptIdx msa gapTh).map fun i => msa.getD i []

/-- The headers of the rows surviving step 1. -/
def gapFilteredHdrs (msa : List (List Char)) (hdrs : List String) (gapTh : ℚ) : List String :=
  (gapKeptIdx msa gapTh).map fun i => hdrs.getD i ""

/-- Step 2 of `filter_rna_msa`: the retained column indices, those whose gap
fraction over the surviving rows is at most `gap_threshold` (a column position
beyond a row's length does not count as a gap, as in the source's
`col < len(seq) and seq[col] == '-'`). -/
def keepColumns (seqs : List (List Char)) (gapTh : ℚ) : List ℕ :=
  (List.range ((seqs.headD []).length)).filter fun c =>
    let gaps := (seqs.filter fun s => decide (c < s.length) && decide (s.getD c ' ' = '-')).length
    decide ((gaps : ℚ) / (seqs.length : ℚ) ≤ gapTh)

/-- The rows of `seqs` restricted to the kept columns (a kept column beyond a
row's end contributes `'-'`, as in the source). -/
def columnFiltered (seqs : List (List Char)) (gapTh : ℚ) : List (List Char) :=
  seqs.map fun s => (keepColumns seqs gapTh).map fun c => if c < s.length then s.getD c '-' else '-'

/-- `filter_rna_msa(msa_sequences, headers, gap_threshold, identity_threshold,
max_sequences)`: row gap filter, column gap filter, weight computation, stable
sort by weight descending (Python's `list.sort` is stable; descending stable
sort by key is embedded as `insertionSort` with `weight_b ≤ weight_a`),
truncation to `max_sequences`; returns `(final_seqs, final_headers)`. -/
def filter_rna_msa (msa : List (List Char)) (headers : Option (List String))
    (gapTh idTh : ℚ) (maxSeq : ℕ) : Option (List (List Char) × List String) :=
  if msa = [] then none
  else
    let hdrs := headers.getD (defaultHeaders msa.length)
    let filteredSeqs := gapFilteredSeqs msa gapTh
    let filteredHdrs := gapFilteredHdrs msa hdrs gapTh
    if filteredSeqs = [] then none
    else
      let colSeqs := columnFiltered filteredSeqs gapTh
      let ws := calculate_sequence_weights colSeqs idTh
      let seqData := (colSeqs.zip filteredHdrs).zip ws
      let sorted := List.insertionSort (fun a b => b.2 ≤ a.2) seqData
      let finalData := sorted.take maxSeq
      some (finalData.map fun t => t.1.1, finalData.map fun t => t.1.2)

/-! ### `load_msa_robust` (enhanced_mi.py lines 289-398)

Modelled over the list of lines of the FASTA file.  File-system errors and the
wall-clock timeout are not modelled.  The `break` on reaching `max_sequences`
is modelled by a `stopped` flag that freezes the fold state; note the source
does not reset `current_header`/`current_seq` before breaking, so the
final "don't forget the last sequence" step re-appends the sequence that was
just saved. -/

/-- Python's `line.strip()` on a line represented as its character list. -/
def stripLine (l : List Char) : List Char :=
  ((l.dropWhile Char.isWhitespace).reverse.dropWhile Char.isWhitespace).reverse

/-- Parser state of `load_msa_robust`'s line loop. -/
structure LoadState where
  seqs : List (List Char)
  hdrs : List (List Char)
  cur : Option (List Char)
  curSeq : List (List Char)
  count : ℕ
  stopped : Bool

/-- One line of `load_msa_robust`'s parsing loop.  A header line first saves
the pending sequence; when that saved sequence reaches `max_sequences` the loop
breaks (`stopped := true`) with `cur`/`curSeq` still holding the sequence that
was just saved. -/
def loadStep (maxSeq : Option ℕ) (st : LoadState) (line : List Char) : LoadState :=
  if st.stopped then st
  else
    let l := stripLine line
    if l = [] then st
    else if l.headD ' ' = '>' then
      match st.cur with
      | some h =>
        let seqs' := st.seqs ++ [st.curSeq.flatten]
        let hdrs' := st.hdrs ++ [h]
        let cnt' := st.count + 1
        if (match maxSeq with | some m => decide (m ≤ cnt') | none => false) then
          { seqs := seqs', hdrs := hdrs', cur := st.cur, curSeq := st.curSeq,
            count := cnt', stopped := true }
        else
          { seqs := seqs', hdrs := hdrs', cur := some (l.drop 1), curSeq := [],
            count := cnt', stopped := false }
      | none =>
        { st with cur := some (l.drop 1), curSeq := [] }
    else
      { st with curSeq := st.curSeq ++ [l] }

/-- `load_msa_robust`: fold the lines, append the pending last sequence
("don't forget the last sequence"), then apply the length-consistency policy
(keep only rows matching the first row's length when lengths are
inconsistent). -/
def load_msa_robust (lines : List (List Char)) (maxSeq : Option ℕ) :
    Option (List (List Char) × List (List Char)) :=
  let st := lines.foldl (loadStep maxSeq) ⟨[], [], none, [], 0, false⟩
  let tl := st.cur.isSome && !st.curSeq.isEmpty
  let seqs := if tl then st.seqs ++ [st.curSeq.flatten] else st.seqs
  let hdrs := if tl then st.hdrs ++ [st.cur.getD []] else st.hdrs
  if 1 < (seqs.map List.length).dedup.length then
    let refLen := (seqs.headD []).length
    let keep := (List.range seqs.length).filter fun i => (seqs.getD i []).length = refLen
    some (keep.map fun i => seqs.getD i [], keep.map fun i => hdrs.getD i [])
  else
    some (seqs, hdrs)

/-! ### Chunk window generation (`chunk_and_analyze_rna`, enhanced_mi.py lines 84-98) -/

/-- Python's `range(0, b, st)` for a positive step `st`. -/
def rangeStep (b st : ℕ) : List ℕ :=
  (List.range ((b + st - 1) / st)).map (st * ·)

/-- Keep elements up to and including the first one satisfying `p` (models the
loop's `break` after recording the window that reaches the end). -/
def takeToIncl (p : α → Bool) : List α → List α
  | [] => []
  | x :: xs => if p x then [x] else x :: takeToIncl p xs

/-- The `(start, end)` windows produced by the chunking loop:
`for start in range(0, seq_length - overlap, chunk_size - overlap)`, with
`end = min(start + chunk_size, seq_length)` and a `break` once `end` reaches
`seq_length`. -/
def chunkWindows (L cs ov : ℕ) : List (ℕ × ℕ) :=
  takeToIncl (fun w => w.2 == L)
    ((rangeStep (L - ov) (cs - ov)).map fun s => (s, min (s + cs) L))

/-! ### Pairwise MI values (`calculate_mutual_information`, mutual_information.py) -/

/-- MI of two columns without pseudocounts (mutual_information.py lines
136-158): iterate over the distinct characters of each column restricted to
the allowed set, with positivity guards before each `log2`. -/
noncomputable def miRaw (n : ℕ) (colI colJ : List Char) : ℝ :=
  ∑ ci ∈ colI.toFinset, (if ci ∈ allowedChars then
    (if 0 < (colI.count ci : ℝ) / n then
      ∑ cj ∈ colJ.toFinset, (if cj ∈ allowedChars then
        (if 0 < (colJ.count cj : ℝ) / n then
          (if 0 < ((colI.zip colJ).count (ci, cj) : ℝ) / n then
            ((colI.zip colJ).count (ci, cj) : ℝ) / n *
              Real.logb 2 ((((colI.zip colJ).count (ci, cj) : ℝ) / n) /
                (((colI.count ci : ℝ) / n) * ((colJ.count cj : ℝ) / n)))
          else 0)
        else 0)
      else 0)
    else 0)
  else 0)

/-- Smoothed marginal frequency of `a` in `col` (mutual_information.py lines
162-183): `(pseudocount/alphabet_size + count) / (n_seqs + pseudocount)`.
Only characters of the allowed set are counted. -/
noncomputable def pcFreq (pc : ℚ) (n : ℕ) (col : List Char) (a : Char) : ℝ :=
  ((pc : ℝ) / alphabetSize + (col.count a : ℝ)) / (n + (pc : ℝ))

/-- Smoothed joint frequency of `(a, b)` over the zipped columns
(mutual_information.py lines 164-186), counting only rows whose two characters
are both in the allowed set. -/
noncomputable def pcJointFreq (pc : ℚ) (n : ℕ) (colI colJ : List Char) (a b : Char) : ℝ :=
  ((pc : ℝ) / (alphabetSize ^ 2) +
    (((colI.zip colJ).filter fun ab => ab.1 ∈ allowedChars ∧ ab.2 ∈ allowedChars).count (a, b) : ℝ)) /
    (n + (pc : ℝ))

/-- MI of two columns with pseudocount smoothing (mutual_information.py lines
160-197): sum over the full allowed alphabet with positivity guards. -/
noncomputable def miPC (pc : ℚ) (n : ℕ) (colI colJ : List Char) : ℝ :=
  ∑ a ∈ allowedChars, (if 0 < pcFreq pc n colI a then
    ∑ b ∈ allowedChars,
      (if 0 < pcFreq pc n colJ b ∧ 0 < pcJointFreq pc n colI colJ a b then
        pcJointFreq pc n colI colJ a b *
          Real.logb 2 (pcJointFreq pc n colI colJ a b /
            (pcFreq pc n colI a * pcFreq pc n colJ b))
      else 0)
  else 0)

/-- The per-pair MI of `calculate_mutual_information`: the pseudocount logic is
bypassed when `pseudocount ≤ 0` ("original behavior"). -/
noncomputable def miVal (pc : ℚ) (n : ℕ) (colI colJ : List Char) : ℝ :=
  if pc ≤ 0 then miRaw n colI colJ else miPC pc n colI colJ

/-! ### Top-pair extraction

`for i in range(seq_len): for j in range(i+1, seq_len): ...` enumerates the
strict upper triangle row-major; Python's stable `sort(key=score,
reverse=True)` is embedded as `insertionSort` with relation
`score_b ≤ score_a`, which keeps tied elements in their original order. -/

/-- The upper-triangle pair enumeration order `(i, j)`, `i < j < L`. -/
def enumPairs (L : ℕ) : List (ℕ × ℕ) :=
  (List.range L).flatMap fun i => (List.range' (i + 1) (L - (i + 1))).map fun j => (i, j)

/-- All `(i, j, score)` records of the strict upper triangle, in enumeration
order (mutual_information.py lines 210-214). -/
noncomputable def pairRecords (L : ℕ) (M : ℕ → ℕ → ℝ) : List (ℕ × ℕ × ℝ) :=
  (enumPairs L).map fun p => (p.1, p.2, M p.1 p.2)

/-- `top_pairs` of `calculate_mutual_information` (lines 210-220): stable sort
by score descending, keep the first `min(100, len)`. -/
noncomputable def topPairsFrom (L : ℕ) (M : ℕ → ℕ → ℝ) : List (ℕ × ℕ × ℝ) :=
  (List.insertionSort (fun a b => b.2.2 ≤ a.2.2) (pairRecords L M)).take
    (min 100 (pairRecords L M).length)

/-- `top_pairs` of the chunked path (enhanced_mi.py lines 174-182): identical
but only records with positive score are enumerated. -/
noncomputable def topPairsPosFrom (L : ℕ) (M : ℕ → ℕ → ℝ) : List (ℕ × ℕ × ℝ) :=
  (List.insertionSort (fun a b => b.2.2 ≤ a.2.2)
      ((pairRecords L M).filter fun r => decide (0 < r.2.2))).take
    (min 100 ((pairRecords L M).filter fun r => decide (0 < r.2.2)).length)

/-! ### `calculate_mutual_information` (mutual_information.py lines 34-239) -/

/-- Result bundle of `calculate_mutual_information`.  `singleSequence` models
presence of the `'single_sequence'` key in the returned `params` dict (`none`
when the key is absent).  `calculation_time` is wall clock and not modelled. -/
structure MIResult where
  seqLen : ℕ
  scores : ℕ → ℕ → ℝ
  method : String
  topPairs : List (ℕ × ℕ × ℝ)
  pseudocount : ℚ
  alphabetSize : ℕ
  singleSequence : Option Bool

/-- `calculate_mutual_information(msa_sequences, pseudocount)`: `None` on empty
input; all-zero matrix, empty `top_pairs` and `single_sequence=True` when the
alignment has at most one distinct sequence; otherwise the symmetric zero-
diagonal MI matrix of the pairwise loop together with its top pairs. -/
noncomputable def calculate_mutual_information (msa : List (List Char))
    (pseudocount : Option ℚ) : Option MIResult :=
  if msa = [] then none
  else
    let L := (msa.headD []).length
    let pc := pseudocount.getD (get_adaptive_pseudocount msa)
    if msa.dedup.length ≤ 1 then
      some { seqLen := L, scores := fun _ _ => 0, method := "mutual_information",
             topPairs := [], pseudocount := pc, alphabetSize := alphabetSize,
             singleSequence := some true }
    else
      let n := msa.length
      let scores : ℕ → ℕ → ℝ := fun i j =>
        if i < L ∧ j < L ∧ i ≠ j then
          miVal pc n (column msa (min i j)) (column msa (max i j))
        else 0
      some { seqLen := L, scores := scores, method := "mutual_information",
             topPairs := topPairsFrom L scores, pseudocount := pc,
             alphabetSize := alphabetSize, singleSequence := none }

/-! ### `apply_rna_apc_correction` (enhanced_mi.py lines 810-864) -/

/-- `row_means[i] = np.mean(mi_matrix, axis=1)[i]` for an `n × n` matrix. -/
noncomputable def rowMean (n : ℕ) (M : ℕ → ℕ → ℝ) (i : ℕ) : ℝ :=
  (∑ j ∈ Finset.range n, M i j) / n

/-- `overall_mean = np.mean(mi_matrix)` for an `n × n` matrix. -/
noncomputable def overallMean (n : ℕ) (M : ℕ → ℕ → ℝ) : ℝ :=
  (∑ i ∈ Finset.range n, ∑ j ∈ Finset.range n, M i j) / (n * n : ℕ)

/-- The standard-APC loop (lines 833-843): for `i < j` the value
`max(0, mi[i,j] - row_mean[i]*row_mean[j]/overall_mean)` when
`overall_mean > 0`, else `mi[i,j]` unmodified; both symmetric cells receive the
value computed from the upper-triangle entry; the diagonal and out-of-range
cells stay at the `np.zeros_like` initial `0`. -/
noncomputable def apcStep (n : ℕ) (M : ℕ → ℕ → ℝ) : ℕ → ℕ → ℝ := fun i j =>
  if i < n ∧ j < n ∧ i ≠ j then
    (if 0 < overallMean n M then
      max 0 (M (min i j) (max i j) - rowMean n M i * rowMean n M j / overallMean n M)
    else M (min i j) (max i j))
  else 0

/-- The RNA distance factor `0.7 + 0.3 * np.log(seq_dist) / np.log(8)`
(line 855). -/
noncomputable def distFactor (d : ℕ) : ℝ :=
  0.7 + 0.3 * Real.log d / Real.log 8

/-- `seq_dist_weight`: `np.ones` with the factor written at both symmetric
cells for pairs at sequence distance 2..8 (lines 848-855). -/
noncomputable def seqDistWeight : ℕ → ℕ → ℝ := fun i j =>
  let d := max i j - min i j
  if i ≠ j ∧ 2 ≤ d ∧ d ≤ 8 then distFactor d else 1

/-- Scipy's `'reflect'` boundary mode `(d c b a | a b c d | d c b a)`: the
index is folded into `[0, n)` with period `2n`. -/
def reflectIdx (n : ℕ) (z : ℤ) : ℕ :=
  if n = 0 then 0
  else
    let m := (z.emod (2 * n)).toNat
    if m < n then m else 2 * n - 1 - m

/-- Unnormalised Gaussian kernel tap `exp(-t² / (2·0.6²))` (scipy
`_gaussian_kernel1d` with `sigma = 0.6`). -/
noncomputable def gaussTap (t : ℤ) : ℝ :=
  Real.exp (-(t : ℝ) ^ 2 / (2 * (0.6 : ℝ) ^ 2))

/-- Normalised Gaussian kernel of radius 2 (`radius = int(4.0*0.6 + 0.5) = 2`). -/
noncomputable def gaussKernel (t : ℤ) : ℝ :=
  gaussTap t / ∑ u ∈ Finset.Icc (-2 : ℤ) 2, gaussTap u

/-- `gaussian_filter(A, sigma=0.6)` on an `n × n` matrix: the separable
correlation along both axes with the radius-2 kernel and reflect boundary,
written as one double sum. -/
noncomputable def gaussianSmooth (n : ℕ) (A : ℕ → ℕ → ℝ) : ℕ → ℕ → ℝ := fun i j =>
  ∑ t ∈ Finset.Icc (-2 : ℤ) 2, ∑ u ∈ Finset.Icc (-2 : ℤ) 2,
    gaussKernel t * gaussKernel u * A (reflectIdx n ((i : ℤ) + t)) (reflectIdx n ((j : ℤ) + u))

/-- `apply_rna_apc_correction(mi_matrix)`: standard APC, then elementwise
multiplication by the distance weights, then Gaussian smoothing. -/
noncomputable def apply_rna_apc_correction (n : ℕ) (M : ℕ → ℕ → ℝ) : ℕ → ℕ → ℝ :=
  gaussianSmooth n fun i j => apcStep n M i j * seqDistWeight i j

/-! ### `calculate_mutual_information_enhanced` (enhanced_mi.py lines 660-808) -/

/-- MI of two columns without pseudocounts in the enhanced module (lines
736-748): iterate over the `Counter` keys of each column (no alphabet
restriction here) and sum over symbol pairs present in the joint counter. -/
noncomputable def miRawE (n : ℕ) (colI colJ : List Char) : ℝ :=
  ∑ x ∈ colI.toFinset, ∑ y ∈ colJ.toFinset,
    (if 0 < (colI.zip colJ).count (x, y) then
      ((colI.zip colJ).count (x, y) : ℝ) / n *
        Real.logb 2 ((((colI.zip colJ).count (x, y) : ℝ) / n) /
          (((colI.count x : ℝ) / n) * ((colJ.count y : ℝ) / n)))
    else 0)

/-- Weighted observation mass added to `i_freqs[a]` (lines 760-765): the sum of
`weights[idx]` over rows whose pair of characters is `(a, ·)` with both
characters in the 7-letter alphabet. -/
noncomputable def wCountI (ws : List ℚ) (pairs : List (Char × Char)) (a : Char) : ℝ :=
  ∑ idx ∈ Finset.range pairs.length,
    (if (pairs.getD idx ('?', '?')).1 = a ∧ (pairs.getD idx ('?', '?')).1 ∈ rnaAlphabet ∧
        (pairs.getD idx ('?', '?')).2 ∈ rnaAlphabet then
      ((ws.getD idx 0 : ℚ) : ℝ)
    else 0)

/-- Weighted observation mass added to `j_freqs[b]` (lines 760-765). -/
noncomputable def wCountJ (ws : List ℚ) (pairs : List (Char × Char)) (b : Char) : ℝ :=
  ∑ idx ∈ Finset.range pairs.length,
    (if (pairs.getD idx ('?', '?')).2 = b ∧ (pairs.getD idx ('?', '?')).1 ∈ rnaAlphabet ∧
        (pairs.getD idx ('?', '?')).2 ∈ rnaAlphabet then
      ((ws.getD idx 0 : ℚ) : ℝ)
    else 0)

/-- Weighted observation mass added to `joint_freqs[(a, b)]` (lines 760-765). -/
noncomputable def wCountIJ (ws : List ℚ) (pairs : List (Char × Char)) (a b : Char) : ℝ :=
  ∑ idx ∈ Finset.range pairs.length,
    (if pairs.getD idx ('?', '?') = (a, b) ∧ (pairs.getD idx ('?', '?')).1 ∈ rnaAlphabet ∧
        (pairs.getD idx ('?', '?')).2 ∈ rnaAlphabet then
      ((ws.getD idx 0 : ℚ) : ℝ)
    else 0)

/-- Weighted, pseudocount-smoothed MI of the enhanced module (lines 749-785):
frequencies are initialised at `pseudocount/7` (marginals) and `pseudocount/49`
(joint), observations weighted by the sequence weights are added, and
everything is normalised by `total_weight + pseudocount` with
`total_weight = 1.0` hard-coded. -/
noncomputable def miPCE (pc : ℚ) (ws : List ℚ) (colI colJ : List Char) : ℝ :=
  let pairs := colI.zip colJ
  let iF : Char → ℝ := fun a => ((pc : ℝ) / 7 + wCountI ws pairs a) / (1 + (pc : ℝ))
  let jF : Char → ℝ := fun b => ((pc : ℝ) / 7 + wCountJ ws pairs b) / (1 + (pc : ℝ))
  let joint : Char → Char → ℝ := fun a b =>
    ((pc : ℝ) / (7 ^ 2) + wCountIJ ws pairs a b) / (1 + (pc : ℝ))
  ∑ a ∈ rnaAlphabet, (if 0 < iF a then
    ∑ b ∈ rnaAlphabet,
      (if 0 < jF b ∧ 0 < joint a b then
        joint a b * Real.logb 2 (joint a b / (iF a * jF b))
      else 0)
  else 0)

/-- The per-pair MI of the enhanced module: counts-based when
`pseudocount ≤ 0`, else the weighted smoothed variant. -/
noncomputable def miValE (pc : ℚ) (n : ℕ) (ws : List ℚ) (colI colJ : List Char) : ℝ :=
  if pc ≤ 0 then miRawE n colI colJ else miPCE pc ws colI colJ

/-- Result bundle of `calculate_mutual_information_enhanced`.  Its `params`
dict carries exactly the keys `pseudocount`, `alphabet_size`, `gap_threshold`
and `conservation_range`; `singleSequence` models presence of a
`'single_sequence'` key and is always `none` because this function never writes
one. -/
structure EnhancedResult where
  seqLen : ℕ
  miMatrix : ℕ → ℕ → ℝ
  apcMatrix : ℕ → ℕ → ℝ
  scores : ℕ → ℕ → ℝ
  method : String
  pseudocount : ℚ
  alphabetSize : ℕ
  gapThreshold : ℚ
  conservationRange : ℚ × ℚ
  singleSequence : Option Bool

/-- `calculate_mutual_information_enhanced(msa_sequences, weights,
gap_threshold, conservation_range, pseudocount)`: `None` on empty input; there
is no single-distinct-sequence early exit — the pairwise loop always runs,
weights default to `calculate_sequence_weights(msa)` (similarity threshold
0.8), and the APC-corrected matrix is returned as `scores`. -/
noncomputable def calculate_mutual_information_enhanced (msa : List (List Char))
    (weights : Option (List ℚ)) (gapTh : ℚ) (consRange : ℚ × ℚ)
    (pseudocount : Option ℚ) : Option EnhancedResult :=
  if msa = [] then none
  else
    let n := msa.length
    let L := (msa.headD []).length
    let pc := pseudocount.getD (get_adaptive_pseudocount msa)
    let ws := weights.getD (calculate_sequence_weights msa (4 / 5))
    let mi : ℕ → ℕ → ℝ := fun i j =>
      if i < L ∧ j < L ∧ i ≠ j then
        miValE pc n ws (column msa (min i j)) (column msa (max i j))
      else 0
    let apc := apply_rna_apc_correction L mi
    some { seqLen := L, miMatrix := mi, apcMatrix := apc, scores := apc,
           method := "mutual_information_enhanced", pseudocount := pc,
           alphabetSize := 7, gapThreshold := gapTh,
           conservationRange := consRange, singleSequence := none }

/-! ### Chunk recombination (`chunk_and_analyze_rna`, enhanced_mi.py lines 125-197) -/

/-- One processed chunk: its local APC-corrected score matrix and global
column range (the loop rebinds `chunk_size = end - start`, so the local width
is `stop - start`). -/
structure ChunkScores where
  scores : ℕ → ℕ → ℝ
  start : ℕ
  stop : ℕ

/-- The blend weight of local index `i` in a chunk of width `cw` (lines
140-156): `i/overlap` in the left overlap region, `(cw - i)/overlap` in the
right one (the left branch wins when both apply), `1.0` in the interior. -/
noncomputable def blendWeight (cw ov i : ℕ) : ℝ :=
  if i < ov then (i : ℝ) / ov
  else if cw - ov ≤ i then ((cw - i : ℕ) : ℝ) / ov
  else 1

/-- The weighted score a chunk adds to global cell `(gi, gj)` (lines 158-162):
nonzero only when both coordinates fall in the chunk's column range. -/
noncomputable def chunkContrib (ov : ℕ) (c : ChunkScores) (gi gj : ℕ) : ℝ :=
  let cw := c.stop - c.start
  if c.start ≤ gi ∧ gi < c.start + cw ∧ c.start ≤ gj ∧ gj < c.start + cw then
    c.scores (gi - c.start) (gj - c.start) *
      (blendWeight cw ov (gi - c.start) * blendWeight cw ov (gj - c.start))
  else 0

/-- The blend weight a chunk adds to global cell `(gi, gj)` (line 163). -/
noncomputable def chunkWeightContrib (ov : ℕ) (c : ChunkScores) (gi gj : ℕ) : ℝ :=
  let cw := c.stop - c.start
  if c.start ≤ gi ∧ gi < c.start + cw ∧ c.start ≤ gj ∧ gj < c.start + cw then
    blendWeight cw ov (gi - c.start) * blendWeight cw ov (gj - c.start)
  else 0

/-- `full_matrix` accumulated over all chunk results. -/
noncomputable def fullMatrix (ov : ℕ) (results : List ChunkScores) (gi gj : ℕ) : ℝ :=
  (results.map fun c => chunkContrib ov c gi gj).sum

/-- `weight_matrix` accumulated over all chunk results. -/
noncomputable def weightMatrix (ov : ℕ) (results : List ChunkScores) (gi gj : ℕ) : ℝ :=
  (results.map fun c => chunkWeightContrib ov c gi gj).sum

/-- The recombined matrix before the final APC pass (lines 165-168):
normalise by the accumulated weight where it is positive
(`full_matrix[mask] /= weight_matrix[mask]`). -/
noncomputable def recombinedMatrix (ov : ℕ) (results : List ChunkScores) (gi gj : ℕ) : ℝ :=
  if 0 < weightMatrix ov results gi gj then
    fullMatrix ov results gi gj / weightMatrix ov results gi gj
  else fullMatrix ov results gi gj

/-- The per-window chunk results of `chunk_and_analyze_rna` (lines 103-123):
slice every sequence to the window and run the enhanced pipeline, keeping the
APC-corrected matrix. -/
noncomputable def chunkResultsOf (msa : List (List Char)) (cs ov : ℕ) (gapTh : ℚ)
    (consRange : ℚ × ℚ) (pc : Option ℚ) : List ChunkScores :=
  let L := (msa.headD []).length
  (chunkWindows L cs ov).filterMap fun w =>
    (calculate_mutual_information_enhanced
        (msa.map fun s => (s.drop w.1).take (w.2 - w.1)) none gapTh consRange pc).map
      fun r => { scores := r.apcMatrix, start := w.1, stop := w.2 }

/-- Result bundle of `chunk_and_analyze_rna`'s chunked branch. -/
structure ChunkedResult where
  seqLen : ℕ
  miMatrix : ℕ → ℕ → ℝ
  scores : ℕ → ℕ → ℝ
  topPairs : List (ℕ × ℕ × ℝ)
  method : String
  chunks : ℕ

/-- The chunked branch of `chunk_and_analyze_rna` (taken when
`seq_length > max_length`; otherwise the function delegates directly to
`calculate_mutual_information_enhanced`): recombine the per-window APC
matrices with the blend weights and apply a final APC pass. -/
noncomputable def chunkedRun (msa : List (List Char)) (cs ov : ℕ) (gapTh : ℚ)
    (consRange : ℚ × ℚ) (pc : Option ℚ) : ChunkedResult :=
  let L := (msa.headD []).length
  let results := chunkResultsOf msa cs ov gapTh consRange pc
  let full := recombinedMatrix ov results
  let finalM := apply_rna_apc_correction L full
  { seqLen := L, miMatrix := full, scores := finalM,
    topPairs := topPairsPosFrom L finalM, method := "mutual_information_chunked",
    chunks := (chunkWindows L cs ov).length }

/-! ### Auxiliary definitions used by the verification -/

/-- A 2×2 symmetric matrix with a negative off-diagonal entry, used to probe
`apply_rna_apc_correction` outside the nonnegative domain. -/
noncomputable def negativeExample : ℕ → ℕ → ℝ := fun i j =>
  if (i = 0 ∧ j = 1) ∨ (i = 1 ∧ j = 0) then -1 else 0

/-- The all-ones matrix. -/
noncomputable def onesMatrix : ℕ → ℕ → ℝ := fun _ _ => 1

/-- The rank of a pair record in the source's row-major upper-triangle
enumeration order: record `(i, j, s)` of an `L × L` matrix has rank
`i * L + j`. -/
def pairPos (L : ℕ) (r : ℕ × ℕ × ℝ) : ℕ := r.1 * L + r.2.1

/-- The total order refining "score descending" by enumeration rank on ties;
a stable descending sort of distinct-rank records is sorted for it. -/
def scoreThenPos (L : ℕ) (a b : ℕ × ℕ × ℝ) : Prop :=
  b.2.2 < a.2.2 ∨ (b.2.2 = a.2.2 ∧ pairPos L a < pairPos L b)

/-! ## Claim C5 (code_bug)

The claim (and the source's own comment, enhanced_mi.py line 854) say the
distance factor equals 0.7 at sequence distance 2, but
`0.7 + 0.3*log(2)/log(8) = 0.7 + 0.3/3 = 0.8`. -/

/-- Claim C5: at sequence distance 2 the multiplier actually applied by
`apply_rna_apc_correction` is `0.8`, not the `0.7` stated by the spec and by
the source's own comment; at distance 8 it is exactly `1`. -/
theorem c5_distance_factor_at_two :
    distFactor 2 = 4 / 5 ∧ seqDistWeight 0 2 = 4 / 5 ∧ distFactor 8 = 1 ∧
      (4 : ℝ) / 5 ≠ 7 / 10 := by
  have hl2 : Real.log 2 ≠ 0 := ne_of_gt (Real.log_pos (by norm_num))
  have hlog8 : Real.log (8 : ℝ) = 3 * Real.log 2 := by
    rw [show (8 : ℝ) = 2 ^ 3 by norm_num, Real.log_pow]
    push_cast
    ring
  have hdf2 : distFactor 2 = 4 / 5 := by
    unfold distFactor
    push_cast
    rw [hlog8]
    field_simp
    ring
  have hdf8 : distFactor 8 = 1 := by
    unfold distFactor
    push_cast
    rw [hlog8]
    field_simp
    ring
  refine ⟨hdf2, ?_, hdf8, by norm_num⟩
  rw [show seqDistWeight 0 2 = distFactor 2 by norm_num [seqDistWeight], hdf2]

/-! ## Claim C3 (code_bug)

`load_msa_robust` is documented (docstring and log message) to load at most
`max_sequences` sequences, but on reaching the limit it breaks without
resetting `current_header`/`current_seq`, and the subsequent "don't forget the
last sequence" step re-appends the sequence that was already saved: with
`max_sequences = 1` the two-record file `>h1 / AAA / >h2 / CCC` yields two
sequences, the first record emitted twice. -/

/-- Claim C3: evaluating the loader at the failing input: with
`max_sequences = 1` it returns 2 sequences and emits record `h1` twice. -/
theorem c3_loader_exceeds_max :
    load_msa_robust [['>', 'h', '1'], ['A', 'A', 'A'], ['>', 'h', '2'], ['C', 'C', 'C']]
        (some 1) =
      some ([['A', 'A', 'A'], ['A', 'A', 'A']], [['h', '1'], ['h', '1']]) ∧
    ¬ ([['A', 'A', 'A'], ['A', 'A', 'A']] : List (List Char)).length ≤ 1 ∧
    ¬ ([['A', 'A', 'A'], ['A', 'A', 'A']] : List (List Char)).Nodup := by
  refine ⟨by decide, by decide, by decide⟩

/-! ## Claim C10 (confirmed)

The blend weight of local index 0 is `0/overlap = 0` in every chunk — also in
the first chunk, whose left edge is the start of the whole sequence — so
global row 0 and column 0 of the recombined matrix (before the final APC pass)
are identically zero whatever the chunk scores are. -/

/-- Claim C10: with positive overlap, local index 0 of every chunk gets blend
weight exactly 0, and consequently row 0 and column 0 of the recombined
matrix before the final APC pass vanish for every list of chunk results. -/
theorem c10_zero_boundary (ov : ℕ) (hov : 0 < ov) :
    (∀ cw, blendWeight cw ov 0 = 0) ∧
    ∀ (results : List ChunkScores) (j : ℕ),
      recombinedMatrix ov results 0 j = 0 ∧ recombinedMatrix ov results j 0 = 0 := by
  have hbw : ∀ cw, blendWeight cw ov 0 = 0 := by
    intro cw
    unfold blendWeight
    rw [if_pos hov]
    simp
  refine ⟨hbw, ?_⟩
  intro results j
  have hcontrib : ∀ c : ChunkScores, ∀ gi gj : ℕ, (gi = 0 ∨ gj = 0) →
      chunkContrib ov c gi gj = 0 ∧ chunkWeightContrib ov c gi gj = 0 := by
    intro c gi gj hor
    simp only [chunkContrib, chunkWeightContrib]
    constructor
    · split
      · rename_i hcond
        rcases hor with rfl | rfl
        · have hs : c.start = 0 := Nat.le_zero.mp hcond.1
          rw [hs]
          simp [hbw]
        · have hs : c.start = 0 := Nat.le_zero.mp hcond.2.2.1
          rw [hs]
          simp [hbw]
      · rfl
    · split
      · rename_i hcond
        rcases hor with rfl | rfl
        · have hs : c.start = 0 := Nat.le_zero.mp hcond.1
          rw [hs]
          simp [hbw]
        · have hs : c.start = 0 := Nat.le_zero.mp hcond.2.2.1
          rw [hs]
          simp [hbw]
      · rfl
  have hfull : ∀ gi gj : ℕ, (gi = 0 ∨ gj = 0) →
      fullMatrix ov results gi gj = 0 ∧ weightMatrix ov results gi gj = 0 := by
    intro gi gj hor
    constructor
    · refine List.sum_eq_zero ?_
      intro x hx
      rcases List.mem_map.mp hx with ⟨c, _, rfl⟩
      exact (hcontrib c gi gj hor).1
    · refine List.sum_eq_zero ?_
      intro x hx
      rcases List.mem_map.mp hx with ⟨c, _, rfl⟩
      exact (hcontrib c gi gj hor).2
  constructor
  · unfold recombinedMatrix
    rw [(hfull 0 j (Or.inl rfl)).1, (hfull 0 j (Or.inl rfl)).2]
    simp
  · unfold recombinedMatrix
    rw [(hfull j 0 (Or.inr rfl)).1, (hfull j 0 (Or.inr rfl)).2]
    simp

/-- Witness for C10 at `overlap = 1`. -/
theorem c10_zero_boundary_witness :
    0 < 1 ∧
    ((∀ cw, blendWeight cw 1 0 = 0) ∧
      ∀ (results : List ChunkScores) (j : ℕ),
        recombinedMatrix 1 results 0 j = 0 ∧ recombinedMatrix 1 results j 0 = 0) :=
  ⟨by decide, c10_zero_boundary 1 (by decide)⟩

/-! ## Shared helper lemmas -/

/-- A cons list whose tail elements all equal the head dedups to the
singleton head. -/
theorem dedup_cons_of_all_eq {α : Type} [DecidableEq α] (h : α) :
    ∀ rest : List α, (∀ s ∈ rest, s = h) → (h :: rest).dedup = [h]
  | [], _ => by simp
  | a :: t, hall => by
    have ha : a = h := hall a (by simp)
    subst ha
    have ht : ∀ s ∈ t, s = a := fun s hs => hall s (by simp [hs])
    rw [List.dedup_cons_of_mem (l := a :: t) (by simp)]
    exact dedup_cons_of_all_eq a t ht

/-- The APC loop produces a symmetric matrix for every input (both symmetric
cells are written from the upper-triangle entry). -/
theorem apcStep_symm (n : ℕ) (M : ℕ → ℕ → ℝ) (i j : ℕ) :
    apcStep n M j i = apcStep n M i j := by
  unfold apcStep
  rw [min_comm j i, max_comm j i, mul_comm (rowMean n M j) (rowMean n M i)]
  have hiff : (j < n ∧ i < n ∧ j ≠ i) ↔ (i < n ∧ j < n ∧ i ≠ j) := by
    constructor
    · rintro ⟨h1, h2, h3⟩
      exact ⟨h2, h1, h3.symm⟩
    · rintro ⟨h1, h2, h3⟩
      exact ⟨h2, h1, h3.symm⟩
  simp only [hiff]

/-! ## Claim C8 (confirmed)

Pseudocount selection of `calculate_mutual_information`: adaptive only when
`pseudocount is None` (0.5 for ≤ 25 sequences, 0 for > 100), and an explicit
value is used and reported unchanged. -/

/-- Claim C8: the reported `params.pseudocount` is the explicit value when one
is supplied, and otherwise the adaptive value — `0.5` for alignments of at
most 25 sequences and `0` for more than 100. -/
theorem c8_pseudocount_selection (msa : List (List Char)) (pc : Option ℚ)
    (hne : msa ≠ []) :
    ∀ r, calculate_mutual_information msa pc = some r →
      r.pseudocount = pc.getD (get_adaptive_pseudocount msa) ∧
      (pc = none → msa.length ≤ 25 → r.pseudocount = 1 / 2) ∧
      (pc = none → 100 < msa.length → r.pseudocount = 0) ∧
      (∀ q, pc = some q → r.pseudocount = q) := by
  intro r hr
  simp only [calculate_mutual_information, if_neg hne] at hr
  have hpc : r.pseudocount = pc.getD (get_adaptive_pseudocount msa) := by
    split at hr <;> (injection hr with hr'; subst hr'; rfl)
  refine ⟨hpc, ?_, ?_, ?_⟩
  · rintro rfl hle
    rw [hpc]
    simp only [Option.getD_none, get_adaptive_pseudocount, if_pos hle]
  · rintro rfl hgt
    rw [hpc]
    simp only [Option.getD_none, get_adaptive_pseudocount]
    rw [if_neg (by omega), if_neg (by omega)]
  · rintro q rfl
    rw [hpc]
    rfl

/-- Witness for C8 at a two-sequence alignment with `pseudocount = None`. -/
theorem c8_pseudocount_selection_witness :
    ([['A'], ['C']] : List (List Char)) ≠ [] ∧
    ∀ r, calculate_mutual_information [['A'], ['C']] none = some r →
      r.pseudocount = (none : Option ℚ).getD (get_adaptive_pseudocount [['A'], ['C']]) ∧
      ((none : Option ℚ) = none → ([['A'], ['C']] : List (List Char)).length ≤ 25 →
        r.pseudocount = 1 / 2) ∧
      ((none : Option ℚ) = none → 100 < ([['A'], ['C']] : List (List Char)).length →
        r.pseudocount = 0) ∧
      (∀ q, (none : Option ℚ) = some q → r.pseudocount = q) :=
  ⟨by decide, c8_pseudocount_selection [['A'], ['C']] none (by decide)⟩

/-! ## Claim C1 (corrected)

`calculate_mutual_information` does skip the pairwise loop on a
single-distinct-sequence alignment and returns the all-zero matrix, empty top
pairs and `single_sequence=True`.  However, the enhanced estimator
`calculate_mutual_information_enhanced` — also cited by the claim — has no such
early exit and never writes a `single_sequence` key in its `params`, so the
claim is false of it. -/

/-- Claim C1 (amended): the single-distinct-sequence early exit holds for
`calculate_mutual_information` (all-zero matrix, empty top pairs,
`single_sequence=True`, pseudocount still reported); the enhanced estimator's
result never carries a `single_sequence` marker. -/
theorem c1_single_sequence (h : List Char) (rest : List (List Char)) (pc : Option ℚ)
    (hall : ∀ s ∈ h :: rest, s = h) :
    (∀ r, calculate_mutual_information (h :: rest) pc = some r →
      (∀ i j, r.scores i j = 0) ∧ r.topPairs = [] ∧ r.singleSequence = some true ∧
        r.pseudocount = pc.getD (get_adaptive_pseudocount (h :: rest))) ∧
    (∀ (msa₂ : List (List Char)) (w : Option (List ℚ)) (g : ℚ) (cr : ℚ × ℚ)
        (p : Option ℚ) (r₂ : EnhancedResult),
      calculate_mutual_information_enhanced msa₂ w g cr p = some r₂ →
      r₂.singleSequence = none) := by
  constructor
  · intro r hr
    have hne : (h :: rest) ≠ [] := List.cons_ne_nil _ _
    have hd : (h :: rest).dedup = [h] :=
      dedup_cons_of_all_eq h rest fun s hs => hall s (List.mem_cons_of_mem _ hs)
    simp only [calculate_mutual_information, if_neg hne, hd, List.length_singleton,
      le_refl, if_true] at hr
    injection hr with hr'
    subst hr'
    exact ⟨fun i j => rfl, rfl, rfl, rfl⟩
  · intro msa₂ w g cr p r₂ hr
    by_cases hne₂ : msa₂ = []
    · subst hne₂
      simp [calculate_mutual_information_enhanced] at hr
    · simp only [calculate_mutual_information_enhanced, if_neg hne₂] at hr
      injection hr with hr'
      subst hr'
      rfl

/-- Witness for C1 at two identical one-character sequences. -/
theorem c1_single_sequence_witness :
    (∀ s ∈ ([['A'], ['A']] : List (List Char)), s = ['A']) ∧
    ((∀ r, calculate_mutual_information [['A'], ['A']] none = some r →
      (∀ i j, r.scores i j = 0) ∧ r.topPairs = [] ∧ r.singleSequence = some true ∧
        r.pseudocount = (none : Option ℚ).getD (get_adaptive_pseudocount [['A'], ['A']])) ∧
    (∀ (msa₂ : List (List Char)) (w : Option (List ℚ)) (g : ℚ) (cr : ℚ × ℚ)
        (p : Option ℚ) (r₂ : EnhancedResult),
      calculate_mutual_information_enhanced msa₂ w g cr p = some r₂ →
      r₂.singleSequence = none)) :=
  ⟨by decide, c1_single_sequence ['A'] [['A']] none (by decide)⟩

/-- Counterexample for C1 as stated: on the all-identical alignment
`["A", "A"]` the enhanced estimator returns a result whose params carry no
`single_sequence` entry at all (`none`, not `some true`). -/
theorem c1_counterexample :
    Option.map (fun r => r.singleSequence)
        (calculate_mutual_information_enhanced [['A'], ['A']] none (1 / 2)
          (1 / 5, 19 / 20) (some 0)) =
      some none ∧
    ([['A'], ['A']] : List (List Char)).dedup.length ≤ 1 := by
  constructor
  · rfl
  · decide

/-! ## Claim C4 (corrected)

The APC bypass condition in the source is `overall_mean > 0`, not
`overall_mean == 0`: a square matrix with negative entries can have a negative
overall mean, in which case the entry is left unmodified (and may stay
negative), contradicting both halves of the claim.  On matrices with
nonnegative entries — every matrix this code receives from the MI estimator —
the claim's formula, the "unmodified exactly at zero mean" reading and
nonnegativity all hold. -/

/-- Claim C4 (amended): for every square input matrix with nonnegative
entries, the overall mean is nonnegative, the pre-smoothing APC value is
`max(0, mi[i,j] - row_mean[i]*row_mean[j]/overall_mean)` whenever the overall
mean is nonzero (positive), the entry is unmodified when the overall mean is
zero, the result is symmetric, and every cell of the pre-smoothing corrected
matrix is nonnegative. -/
theorem c4_apc_on_nonneg (n : ℕ) (M : ℕ → ℕ → ℝ)
    (hM : ∀ i j, i < n → j < n → 0 ≤ M i j) (i j : ℕ) (hij : i < j) (hjn : j < n) :
    0 ≤ overallMean n M ∧
    (0 < overallMean n M →
      apcStep n M i j =
        max 0 (M i j - rowMean n M i * rowMean n M j / overallMean n M)) ∧
    (overallMean n M = 0 → apcStep n M i j = M i j) ∧
    apcStep n M j i = apcStep n M i j ∧
    (∀ a b, 0 ≤ apcStep n M a b) := by
  have hin : i < n := lt_trans hij hjn
  have hmean : 0 ≤ overallMean n M := by
    unfold overallMean
    apply div_nonneg
    · apply Finset.sum_nonneg
      intro a ha
      apply Finset.sum_nonneg
      intro b hb
      exact hM a b (Finset.mem_range.mp ha) (Finset.mem_range.mp hb)
    · positivity
  have hcond : i < n ∧ j < n ∧ i ≠ j := ⟨hin, hjn, Nat.ne_of_lt hij⟩
  have hmin : min i j = i := min_eq_left hij.le
  have hmax : max i j = j := max_eq_right hij.le
  refine ⟨hmean, ?_, ?_, apcStep_symm n M i j, ?_⟩
  · intro hpos
    unfold apcStep
    rw [if_pos hcond, if_pos hpos, hmin, hmax]
  · intro hzero
    unfold apcStep
    rw [if_pos hcond, if_neg (by rw [hzero]; exact lt_irrefl 0), hmin, hmax]
  · intro a b
    unfold apcStep
    split
    · rename_i hc
      split
      · exact le_max_left 0 _
      · refine hM (min a b) (max a b) ?_ ?_
        · exact lt_of_le_of_lt (min_le_left a b) hc.1
        · exact max_lt hc.1 hc.2.1
    · exact le_refl 0

/-- Witness for C4 on the all-ones 2×2 matrix. -/
theorem c4_apc_on_nonneg_witness :
    (∀ i j, i < 2 → j < 2 → (0 : ℝ) ≤ onesMatrix i j) ∧ (0 : ℕ) < 1 ∧ 1 < 2 ∧
    (0 ≤ overallMean 2 onesMatrix ∧
      (0 < overallMean 2 onesMatrix →
        apcStep 2 onesMatrix 0 1 =
          max 0 (onesMatrix 0 1 -
            rowMean 2 onesMatrix 0 * rowMean 2 onesMatrix 1 / overallMean 2 onesMatrix)) ∧
      (overallMean 2 onesMatrix = 0 → apcStep 2 onesMatrix 0 1 = onesMatrix 0 1) ∧
      apcStep 2 onesMatrix 1 0 = apcStep 2 onesMatrix 0 1 ∧
      (∀ a b, 0 ≤ apcStep 2 onesMatrix a b)) :=
  ⟨fun _ _ _ _ => by norm_num [onesMatrix], by decide, by decide,
    c4_apc_on_nonneg 2 onesMatrix (fun _ _ _ _ => by norm_num [onesMatrix]) 0 1
      (by decide) (by decide)⟩

/-- Counterexample for C4 as stated: on the symmetric matrix with
`M[0,1] = M[1,0] = -1` the overall mean is `-1/2 ≠ 0`, yet the code leaves the
entry unmodified at `-1` — it does not apply the claimed `max(0, ...)` formula
(which would give `0`) and the pre-smoothing corrected value is negative. -/
theorem c4_counterexample :
    apcStep 2 negativeExample 0 1 = -1 ∧
    overallMean 2 negativeExample ≠ 0 ∧
    apcStep 2 negativeExample 0 1 ≠
      max 0 (negativeExample 0 1 -
        rowMean 2 negativeExample 0 * rowMean 2 negativeExample 1 /
          overallMean 2 negativeExample) ∧
    apcStep 2 negativeExample 0 1 < 0 := by
  have hom : overallMean 2 negativeExample = -(1 / 2) := by
    norm_num [overallMean, Finset.sum_range_succ, Finset.sum_range_zero, negativeExample]
  have hrm0 : rowMean 2 negativeExample 0 = -(1 / 2) := by
    norm_num [rowMean, Finset.sum_range_succ, Finset.sum_range_zero, negativeExample]
  have hrm1 : rowMean 2 negativeExample 1 = -(1 / 2) := by
    norm_num [rowMean, Finset.sum_range_succ, Finset.sum_range_zero, negativeExample]
  have hval : negativeExample 0 1 = -1 := by norm_num [negativeExample]
  have hapc : apcStep 2 negativeExample 0 1 = -1 := by
    have hnotpos : ¬ (0 : ℝ) < overallMean 2 negativeExample := by
      rw [hom]
      norm_num
    unfold apcStep
    rw [if_pos ⟨by norm_num, by norm_num, by norm_num⟩, if_neg hnotpos]
    norm_num [negativeExample]
  refine ⟨hapc, by rw [hom]; norm_num, ?_, by rw [hapc]; norm_num⟩
  rw [hapc, hom, hrm0, hrm1, hval]
  have hmax : max (0 : ℝ) (-1 - -(1 / 2) * -(1 / 2) / -(1 / 2)) = 0 := by
    rw [max_eq_left (by norm_num)]
  rw [hmax]
  norm_num

/-! ## Claim C7 (confirmed): symmetry and zero diagonal -/

/-- The distance-weight matrix is symmetric. -/
theorem seqDistWeight_symm (i j : ℕ) : seqDistWeight j i = seqDistWeight i j := by
  unfold seqDistWeight
  rw [max_comm j i, min_comm j i]
  have hiff : (j ≠ i ∧ 2 ≤ max i j - min i j ∧ max i j - min i j ≤ 8) ↔
      (i ≠ j ∧ 2 ≤ max i j - min i j ∧ max i j - min i j ≤ 8) := by
    constructor
    · rintro ⟨h1, h2⟩
      exact ⟨h1.symm, h2⟩
    · rintro ⟨h1, h2⟩
      exact ⟨h1.symm, h2⟩
  simp only [hiff]

/-- The Gaussian smoothing step maps symmetric matrices to symmetric
matrices: it correlates with the same one-dimensional kernel along both axes
with the same boundary handling. -/
theorem gaussianSmooth_symm (n : ℕ) (A : ℕ → ℕ → ℝ) (hA : ∀ i j, A i j = A j i)
    (i j : ℕ) : gaussianSmooth n A i j = gaussianSmooth n A j i := by
  unfold gaussianSmooth
  rw [Finset.sum_comm]
  refine Finset.sum_congr rfl fun u _ => Finset.sum_congr rfl fun t _ => ?_
  rw [hA]
  ring

/-- Claim C7: for every alignment with at least two distinct sequences the
returned MI matrix is symmetric with zero diagonal, and
`apply_rna_apc_correction` maps every symmetric matrix to a symmetric matrix,
distance weighting and Gaussian smoothing included. -/
theorem c7_symmetry (msa : List (List Char)) (pc : Option ℚ)
    (hdist : ∃ a ∈ msa, ∃ b ∈ msa, a ≠ b) :
    (∀ r, calculate_mutual_information msa pc = some r →
      (∀ i j, r.scores i j = r.scores j i) ∧ ∀ i, r.scores i i = 0) ∧
    (∀ (n : ℕ) (A : ℕ → ℕ → ℝ), (∀ i j, A i j = A j i) →
      ∀ i j, apply_rna_apc_correction n A i j = apply_rna_apc_correction n A j i) := by
  constructor
  · intro r hr
    obtain ⟨a, ha, _, _, _⟩ := hdist
    have hne : msa ≠ [] := List.ne_nil_of_mem ha
    simp only [calculate_mutual_information, if_neg hne] at hr
    split at hr <;> injection hr with hr' <;> subst hr'
    · exact ⟨fun i j => rfl, fun i => rfl⟩
    · constructor
      · intro i j
        show (if i < _ ∧ j < _ ∧ i ≠ j then _ else 0) =
          (if j < _ ∧ i < _ ∧ j ≠ i then _ else 0)
        rw [min_comm j i, max_comm j i]
        have hiff : (j < (msa.headD []).length ∧ i < (msa.headD []).length ∧ j ≠ i) ↔
            (i < (msa.headD []).length ∧ j < (msa.headD []).length ∧ i ≠ j) := by
          constructor
          · rintro ⟨h1, h2, h3⟩
            exact ⟨h2, h1, h3.symm⟩
          · rintro ⟨h1, h2, h3⟩
            exact ⟨h2, h1, h3.symm⟩
        simp only [hiff]
      · intro i
        show (if i < _ ∧ i < _ ∧ i ≠ i then _ else 0) = 0
        rw [if_neg]
        rintro ⟨_, _, hne'⟩
        exact hne' rfl
  · intro n A _ i j
    unfold apply_rna_apc_correction
    exact gaussianSmooth_symm n _
      (fun a b => by rw [apcStep_symm, seqDistWeight_symm]) i j

/-- Witness for C7 at a two-sequence alignment with distinct rows. -/
theorem c7_symmetry_witness :
    (∃ a ∈ ([['A'], ['C']] : List (List Char)), ∃ b ∈ ([['A'], ['C']] : List (List Char)),
      a ≠ b) ∧
    ((∀ r, calculate_mutual_information [['A'], ['C']] (some 0) = some r →
      (∀ i j, r.scores i j = r.scores j i) ∧ ∀ i, r.scores i i = 0) ∧
    (∀ (n : ℕ) (A : ℕ → ℕ → ℝ), (∀ i j, A i j = A j i) →
      ∀ i j, apply_rna_apc_correction n A i j = apply_rna_apc_correction n A j i)) :=
  ⟨⟨['A'], by simp, ['C'], by simp, by decide⟩,
    c7_symmetry [['A'], ['C']] (some 0) ⟨['A'], by simp, ['C'], by simp, by decide⟩⟩

/-! ## Claim C6 (confirmed): chunk window generation -/

/-- Ceiling division: `B ≤ ⌈B/st⌉ * st`. -/
theorem ceil_div_mul_ge (B st : ℕ) (hst : 0 < st) : B ≤ (B + st - 1) / st * st := by
  rcases Nat.eq_zero_or_pos B with hB | hB
  · subst hB
    simp
  · have h1 : B + st - 1 = (B - 1) + st := by omega
    rw [h1, Nat.add_div_right _ hst, Nat.succ_mul]
    have h2 := Nat.div_add_mod (B - 1) st
    have h3 : (B - 1) % st < st := Nat.mod_lt _ hst
    have h4 : st * ((B - 1) / st) = (B - 1) / st * st := Nat.mul_comm _ _
    omega

/-- Ceiling division: indices below `⌈B/st⌉` have `st * k < B`. -/
theorem mul_lt_of_lt_ceil_div {B st k : ℕ} (hst : 0 < st)
    (hk : k < (B + st - 1) / st) : st * k < B := by
  by_contra hcon
  push_neg at hcon
  have h2 : B + st - 1 < (k + 1) * st := by
    rw [Nat.succ_mul, Nat.mul_comm k st]
    omega
  have h3 : (B + st - 1) / st < k + 1 := (Nat.div_lt_iff_lt_mul hst).mpr h2
  omega

/-- `takeToIncl` keeps exactly the prefix through the first index where the
predicate holds. -/
theorem takeToIncl_eq_take {α : Type} (p : α → Bool) (l : List α) :
    ∀ (K : ℕ), K < l.length →
      (∀ i, (hi : i < l.length) → i < K → p l[i] = false) →
      (∀ hK : K < l.length, p l[K] = true) →
      takeToIncl p l = l.take (K + 1) := by
  induction l with
  | nil =>
    intro K hK
    simp at hK
  | cons x xs ih =>
    intro K hK hf hp
    cases K with
    | zero =>
      have hp0 : p x = true := by simpa using hp hK
      simp only [takeToIncl, hp0, if_true]
      rfl
    | succ K =>
      have h0 : p x = false := by
        simpa using hf 0 (by simp) (Nat.succ_pos K)
      simp only [takeToIncl, h0, Bool.false_eq_true, if_false]
      rw [List.take_succ_cons]
      congr 1
      refine ih K (by simpa using hK) ?_ ?_
      · intro i hi hiK
        simpa using hf (i + 1) (by simpa using Nat.succ_lt_succ hi) (Nat.succ_lt_succ hiK)
      · intro hK'
        simpa using hp hK

/-- Claim C6: for `seq_len > max_length` and `0 < overlap < chunk_size ≤
seq_len`, the generated windows are exactly the successive multiples of
`chunk_size - overlap` paired with ends `min(start + chunk_size, seq_len)`,
every window before the last stops short of `seq_len`, the last window's end
is `seq_len`, and every column lies in at least one window. -/
theorem c6_chunk_windows (L cs ov maxLen : ℕ) (_hml : maxLen < L) (hov : 0 < ov)
    (hoc : ov < cs) (hcl : cs ≤ L) :
    chunkWindows L cs ov =
      (List.range ((L - cs + (cs - ov) - 1) / (cs - ov) + 1)).map
        (fun k => ((cs - ov) * k, min ((cs - ov) * k + cs) L)) ∧
    (∀ k, k < (L - cs + (cs - ov) - 1) / (cs - ov) → (cs - ov) * k + cs < L) ∧
    L ≤ (cs - ov) * ((L - cs + (cs - ov) - 1) / (cs - ov)) + cs ∧
    (∀ c, c < L → ∃ w ∈ chunkWindows L cs ov, w.1 ≤ c ∧ c < w.2) := by
  set st := cs - ov with hst_def
  have hst : 0 < st := by omega
  set D := L - cs with hD_def
  set K := (D + st - 1) / st with hK_def
  have hB : ∀ k, k < K → st * k < D := fun k hk => mul_lt_of_lt_ceil_div hst hk
  have hKst : D ≤ K * st := ceil_div_mul_ge D st hst
  have hmulKst : st * K = K * st := Nat.mul_comm _ _
  have hC : L ≤ st * K + cs := by omega
  have hKlt : st * K < L - ov := by
    rcases Nat.eq_zero_or_pos D with hD0 | hDpos
    · have hK0 : K = 0 := by
        rw [hK_def, hD0]
        exact Nat.div_eq_of_lt (by omega)
      rw [hK0]
      omega
    · have h1 : D + st - 1 = (D - 1) + st := by omega
      have hK2 : K = (D - 1) / st + 1 := by rw [hK_def, h1, Nat.add_div_right _ hst]
      have h3 : (D - 1) / st * st ≤ D - 1 := Nat.div_mul_le_self _ _
      have h4 : st * ((D - 1) / st + 1) = (D - 1) / st * st + st := by
        rw [Nat.mul_add, Nat.mul_comm, Nat.mul_one]
      rw [hK2, h4]
      omega
  set N := (L - ov + st - 1) / st with hN_def
  have hKN : K < N := by
    by_contra hcon
    push_neg at hcon
    have h1 : L - ov ≤ N * st := ceil_div_mul_ge (L - ov) st hst
    have h2 : N * st ≤ K * st := Nat.mul_le_mul_right st hcon
    omega
  have hwin : chunkWindows L cs ov =
      (List.range (K + 1)).map (fun k => (st * k, min (st * k + cs) L)) := by
    unfold chunkWindows rangeStep
    rw [List.map_map]
    have hlen :
        K < ((List.range ((L - ov + st - 1) / st)).map
          ((fun s => (s, min (s + cs) L)) ∘ (st * ·))).length := by
      simpa using hKN
    rw [takeToIncl_eq_take _ _ K hlen ?_ ?_]
    · rw [← List.map_take, List.take_range]
      have hmin : (K + 1) ⊓ ((L - ov + st - 1) / st) = K + 1 := by
        rw [min_eq_left]
        omega
      rw [hmin]
      rfl
    · intro i hi hiK
      have hlt : st * i + cs < L := by
        have := hB i hiK
        omega
      rw [List.getElem_map, List.getElem_range]
      show (min (st * i + cs) L == L) = false
      rw [min_eq_left (le_of_lt hlt)]
      exact beq_eq_false_iff_ne.mpr (Nat.ne_of_lt hlt)
    · intro hK'
      rw [List.getElem_map, List.getElem_range]
      show (min (st * K + cs) L == L) = true
      rw [min_eq_right hC]
      exact beq_self_eq_true L
  have hcov : ∀ c, c < L → ∃ w ∈ chunkWindows L cs ov, w.1 ≤ c ∧ c < w.2 := by
    intro c hc
    rw [hwin]
    refine ⟨(st * min K (c / st), min (st * min K (c / st) + cs) L),
      List.mem_map.mpr ⟨min K (c / st), List.mem_range.mpr ?_, rfl⟩, ?_, ?_⟩
    · have := min_le_left K (c / st)
      omega
    · have h1 : min K (c / st) ≤ c / st := min_le_right _ _
      have h2 : c / st * st ≤ c := Nat.div_mul_le_self _ _
      have h3 : min K (c / st) * st ≤ c / st * st := Nat.mul_le_mul_right st h1
      have h4 : st * min K (c / st) = min K (c / st) * st := Nat.mul_comm _ _
      omega
    · refine lt_min ?_ hc
      rcases le_or_lt (c / st) K with hle | hlt
      · have hk : min K (c / st) = c / st := min_eq_right hle
        have h5 := Nat.div_add_mod c st
        have h6 : c % st < st := Nat.mod_lt _ hst
        rw [hk]
        omega
      · have hk : min K (c / st) = K := min_eq_left (le_of_lt hlt)
        rw [hk]
        omega
  exact ⟨hwin, fun k hk => by have := hB k hk; omega, by omega, hcov⟩

/-- Witness for C6 at `seq_len = 10`, `chunk_size = 5`, `overlap = 2`,
`max_length = 7` (windows `(0,5), (3,8), (6,10)`). -/
theorem c6_chunk_windows_witness :
    (7 < 10 ∧ 0 < 2 ∧ 2 < 5 ∧ 5 ≤ 10) ∧
    (chunkWindows 10 5 2 =
      (List.range ((10 - 5 + (5 - 2) - 1) / (5 - 2) + 1)).map
        (fun k => ((5 - 2) * k, min ((5 - 2) * k + 5) 10)) ∧
    (∀ k, k < (10 - 5 + (5 - 2) - 1) / (5 - 2) → (5 - 2) * k + 5 < 10) ∧
    10 ≤ (5 - 2) * ((10 - 5 + (5 - 2) - 1) / (5 - 2)) + 5 ∧
    (∀ c, c < 10 → ∃ w ∈ chunkWindows 10 5 2, w.1 ≤ c ∧ c < w.2)) :=
  ⟨by decide, c6_chunk_windows 10 5 2 7 (by decide) (by decide) (by decide) (by decide)⟩

/-! ## Claim C9 (confirmed): top-pair extraction

Python's `list.sort(key=score, reverse=True)` is stable; on a list whose
enumeration ranks (`pairPos`) are strictly increasing, the embedded stable
descending insertion sort is sorted for `scoreThenPos`: scores descending with
ties in enumeration order. -/

/-- Inserting a record whose rank is below every rank in a `scoreThenPos`-
sorted list (with the stable descending insertion) keeps the list sorted for
`scoreThenPos`. -/
theorem orderedInsert_scoreThenPos (L : ℕ) (x : ℕ × ℕ × ℝ) (l : List (ℕ × ℕ × ℝ))
    (hl : l.Pairwise (scoreThenPos L)) (hx : ∀ y ∈ l, pairPos L x < pairPos L y) :
    (List.orderedInsert (fun a b => b.2.2 ≤ a.2.2) x l).Pairwise (scoreThenPos L) := by
  induction l with
  | nil => simp [List.orderedInsert, scoreThenPos]
  | cons b t ih =>
    rw [List.orderedInsert]
    by_cases h : b.2.2 ≤ x.2.2
    · rw [if_pos h]
      refine List.Pairwise.cons ?_ hl
      intro z hz
      rcases List.mem_cons.mp hz with rfl | hzt
      · rcases lt_or_eq_of_le h with hlt | heq
        · exact Or.inl hlt
        · exact Or.inr ⟨heq, hx z (List.mem_cons_self z t)⟩
      · have hRbz := (List.pairwise_cons.mp hl).1 z hzt
        rcases hRbz with hlt | ⟨heq, _⟩
        · exact Or.inl (lt_of_lt_of_le hlt h)
        · have hle : z.2.2 ≤ x.2.2 := le_trans (le_of_eq heq) h
          rcases lt_or_eq_of_le hle with hlt2 | heq2
          · exact Or.inl hlt2
          · exact Or.inr ⟨heq2, hx z (List.mem_cons_of_mem _ hzt)⟩
    · rw [if_neg h]
      push_neg at h
      have hl' := List.pairwise_cons.mp hl
      refine List.Pairwise.cons ?_ (ih hl'.2 fun y hy => hx y (List.mem_cons_of_mem _ hy))
      intro z hz
      rcases (List.mem_orderedInsert _).mp hz with rfl | hzt
      · exact Or.inl h
      · exact hl'.1 z hzt

/-- The stable descending insertion sort of a rank-increasing list is sorted
for `scoreThenPos`. -/
theorem insertionSort_scoreThenPos (L : ℕ) (l : List (ℕ × ℕ × ℝ))
    (h : l.Pairwise fun a b => pairPos L a < pairPos L b) :
    (List.insertionSort (fun a b => b.2.2 ≤ a.2.2) l).Pairwise (scoreThenPos L) := by
  induction l with
  | nil => simp
  | cons x t ih =>
    rw [List.insertionSort]
    have h' := List.pairwise_cons.mp h
    exact orderedInsert_scoreThenPos L x _ (ih h'.2)
      fun y hy => h'.1 y ((List.mem_insertionSort _).mp hy)

/-- Sum of a function mapped over `List.range` as a `Finset` sum. -/
theorem listRangeSum (g : ℕ → ℕ) : ∀ L, ((List.range L).map g).sum = ∑ i ∈ Finset.range L, g i
  | 0 => by simp
  | L + 1 => by
    rw [List.range_succ, List.map_append, List.sum_append, Finset.sum_range_succ,
      listRangeSum g L]
    simp

/-- Every enumerated pair satisfies `i < j < L`. -/
theorem mem_enumPairs {L : ℕ} {p : ℕ × ℕ} (hp : p ∈ enumPairs L) :
    p.1 < p.2 ∧ p.2 < L := by
  unfold enumPairs at hp
  rcases List.mem_flatMap.mp hp with ⟨i, hi, hpin⟩
  rcases List.mem_map.mp hpin with ⟨j, hj, rfl⟩
  have hiL : i < L := List.mem_range.mp hi
  rcases List.mem_range'.mp hj with ⟨t, ht, rfl⟩
  constructor
  · simp only []
    omega
  · simp only []
    omega

/-- The enumeration has exactly `C(L, 2) = L*(L-1)/2` pairs. -/
theorem enumPairs_length (L : ℕ) : (enumPairs L).length = L * (L - 1) / 2 := by
  unfold enumPairs
  rw [List.length_flatMap]
  have h1 : (List.map
      (List.length ∘ fun i => (List.range' (i + 1) (L - (i + 1))).map fun j => (i, j))
      (List.range L)) = (List.range L).map fun i => L - (i + 1) := by
    apply List.map_congr_left
    intro i _
    simp [List.length_range']
  rw [h1, listRangeSum]
  rw [Finset.sum_congr rfl fun i _ => (by omega : L - (i + 1) = L - 1 - i)]
  rw [Finset.sum_range_reflect (fun i => i) L]
  exact Finset.sum_range_id L

/-- The enumeration ranks `i*L + j` are strictly increasing along
`enumPairs`. -/
theorem enumPairs_pairwise (L : ℕ) :
    (enumPairs L).Pairwise fun p q => p.1 * L + p.2 < q.1 * L + q.2 := by
  unfold enumPairs
  rw [List.flatMap_def, List.pairwise_flatten]
  constructor
  · intro l hl
    rcases List.mem_map.mp hl with ⟨i, _, rfl⟩
    rw [List.pairwise_map]
    refine List.Pairwise.imp ?_ (List.pairwise_lt_range' _ _)
    intro a b hab
    simp only []
    omega
  · rw [List.pairwise_map]
    refine List.Pairwise.imp ?_ (List.pairwise_lt_range L)
    intro i1 i2 h12 x hx y hy
    rcases List.mem_map.mp hx with ⟨j1, hj1, rfl⟩
    rcases List.mem_map.mp hy with ⟨j2, hj2, rfl⟩
    rcases List.mem_range'.mp hj1 with ⟨t1, ht1, rfl⟩
    rcases List.mem_range'.mp hj2 with ⟨t2, ht2, rfl⟩
    have e1 : (i1 + 1) * L = i1 * L + L := Nat.succ_mul i1 L
    have e2 : (i1 + 1) * L ≤ i2 * L := Nat.mul_le_mul_right L h12
    simp only []
    omega

/-- The pair records inherit strictly increasing ranks. -/
theorem pairRecords_pairwise (L : ℕ) (M : ℕ → ℕ → ℝ) :
    (pairRecords L M).Pairwise fun a b => pairPos L a < pairPos L b := by
  unfold pairRecords
  rw [List.pairwise_map]
  refine List.Pairwise.imp ?_ (enumPairs_pairwise L)
  intro p q hpq
  simpa [pairPos] using hpq

/-- Every pair record has `i < j`. -/
theorem mem_pairRecords {L : ℕ} {M : ℕ → ℕ → ℝ} {r : ℕ × ℕ × ℝ}
    (hr : r ∈ pairRecords L M) : r.1 < r.2.1 := by
  unfold pairRecords at hr
  rcases List.mem_map.mp hr with ⟨p, hp, rfl⟩
  simpa using (mem_enumPairs hp).1

/-- Shared core: sorting and truncating a rank-increasing record list gives a
list of the right length, sorted for `scoreThenPos`, whose members come from
the base list. -/
theorem topPairs_core (L : ℕ) (base : List (ℕ × ℕ × ℝ))
    (hrk : base.Pairwise fun a b => pairPos L a < pairPos L b) :
    ((List.insertionSort (fun a b => b.2.2 ≤ a.2.2) base).take
        (min 100 base.length)).length = min 100 base.length ∧
    ((List.insertionSort (fun a b => b.2.2 ≤ a.2.2) base).take
        (min 100 base.length)).Pairwise (scoreThenPos L) ∧
    ∀ r ∈ (List.insertionSort (fun a b => b.2.2 ≤ a.2.2) base).take
        (min 100 base.length), r ∈ base := by
  have hsortlen :
      (List.insertionSort (fun a b => b.2.2 ≤ a.2.2) base).length = base.length :=
    (List.perm_insertionSort _ base).length_eq
  refine ⟨?_, ?_, ?_⟩
  · rw [List.length_take, hsortlen]
    exact min_eq_left (min_le_right _ _)
  · exact List.Pairwise.sublist (List.take_sublist _ _)
      (insertionSort_scoreThenPos L base hrk)
  · intro r hr
    exact (List.mem_insertionSort _).mp (List.Sublist.mem hr (List.take_sublist _ _))

/-- Claim C9: for every run on an `L × L` matrix, both top-pair extractors
(all pairs, and the positive-score variant of the chunked path) return only
records with `i < j`, at most `min(100, L*(L-1)/2)` of them, with scores
non-increasing and tied scores in the original row-major enumeration order
(rank `pairPos L r = i*L + j`). -/
theorem c9_top_pairs (L : ℕ) (M : ℕ → ℕ → ℝ) :
    (∀ r ∈ topPairsFrom L M, r.1 < r.2.1) ∧
    (topPairsFrom L M).length ≤ min 100 (L * (L - 1) / 2) ∧
    (topPairsFrom L M).Pairwise (fun a b => b.2.2 ≤ a.2.2) ∧
    (topPairsFrom L M).Pairwise
      (fun a b => a.2.2 = b.2.2 → pairPos L a < pairPos L b) ∧
    (∀ r ∈ topPairsPosFrom L M, r.1 < r.2.1) ∧
    (topPairsPosFrom L M).length ≤ min 100 (L * (L - 1) / 2) ∧
    (topPairsPosFrom L M).Pairwise (fun a b => b.2.2 ≤ a.2.2) ∧
    (topPairsPosFrom L M).Pairwise
      (fun a b => a.2.2 = b.2.2 → pairPos L a < pairPos L b) := by
  have hlenbase : (pairRecords L M).length = L * (L - 1) / 2 := by
    unfold pairRecords
    rw [List.length_map, enumPairs_length]
  have h1 := topPairs_core L (pairRecords L M) (pairRecords_pairwise L M)
  have h2 := topPairs_core L ((pairRecords L M).filter fun r => decide (0 < r.2.2))
    ((pairRecords_pairwise L M).filter _)
  have hdesc : ∀ {a b : ℕ × ℕ × ℝ}, scoreThenPos L a b → b.2.2 ≤ a.2.2 := by
    intro a b hab
    rcases hab with hlt | ⟨heq, _⟩
    · exact le_of_lt hlt
    · exact le_of_eq heq
  have htie : ∀ {a b : ℕ × ℕ × ℝ}, scoreThenPos L a b →
      a.2.2 = b.2.2 → pairPos L a < pairPos L b := by
    intro a b hab heq
    rcases hab with hlt | ⟨_, hp⟩
    · exact absurd hlt (by rw [heq]; exact lt_irrefl _)
    · exact hp
  refine ⟨?_, ?_, ?_, ?_, ?_, ?_, ?_, ?_⟩
  · intro r hr
    exact mem_pairRecords (h1.2.2 r hr)
  · rw [show (topPairsFrom L M).length = min 100 (pairRecords L M).length from h1.1,
      hlenbase]
  · exact h1.2.1.imp hdesc
  · exact h1.2.1.imp htie
  · intro r hr
    exact mem_pairRecords (List.mem_filter.mp (h2.2.2 r hr)).1
  · rw [show (topPairsPosFrom L M).length =
      min 100 ((pairRecords L M).filter fun r => decide (0 < r.2.2)).length from h2.1]
    exact min_le_min (le_refl 100)
      (le_trans (List.length_filter_le _ _) (le_of_eq hlenbase))
  · exact h2.2.1.imp hdesc
  · exact h2.2.1.imp htie

/-! ## Claim C2 (corrected)

The spec's contract says `filter_rna_msa` returns `(filtered_alignment,
weights)`, but the source returns `(final_seqs, final_headers)` — its own
docstring says so — and the weight vector is used only to order and truncate
the rows. -/

/-- Claim C2 (amended): for every alignment with a survivor of gap filtering,
`filter_rna_msa` returns a pair of filtered sequences and their *headers*
aligned by index (each returned (sequence, header) pair is an original
column-filtered row with its own header), truncated to `max_sequences`; the
normalized weight vector is not part of the result. -/
theorem c2_filter_returns_headers (msa : List (List Char))
    (headers : Option (List String)) (gapTh idTh : ℚ) (maxSeq : ℕ)
    (hne : msa ≠ []) (hsurv : gapFilteredSeqs msa gapTh ≠ []) :
    ∃ seqs hds, filter_rna_msa msa headers gapTh idTh maxSeq = some (seqs, hds) ∧
      seqs.length = hds.length ∧ seqs.length ≤ maxSeq ∧
      ∀ pr ∈ seqs.zip hds,
        pr ∈ (columnFiltered (gapFilteredSeqs msa gapTh) gapTh).zip
          (gapFilteredHdrs msa (headers.getD (defaultHeaders msa.length)) gapTh) := by
  simp only [filter_rna_msa, if_neg hne, if_neg hsurv]
  refine ⟨_, _, rfl, ?_, ?_, ?_⟩
  · simp
  · rw [List.length_map, List.length_take]
    exact min_le_left _ _
  · intro pr hpr
    rw [List.zip_map'] at hpr
    rcases List.mem_map.mp hpr with ⟨t, ht, rfl⟩
    have h1 := List.Sublist.mem ht (List.take_sublist _ _)
    have h2 := (List.mem_insertionSort _).mp h1
    exact (List.of_mem_zip h2).1

/-- Witness for C2 on a gap-free two-row alignment. -/
theorem c2_filter_returns_headers_witness :
    (([['A', 'C'], ['A', 'C']] : List (List Char)) ≠ [] ∧
      gapFilteredSeqs [['A', 'C'], ['A', 'C']] (1 / 2) ≠ []) ∧
    (∃ seqs hds, filter_rna_msa [['A', 'C'], ['A', 'C']] none (1 / 2) (4 / 5) 5000 =
        some (seqs, hds) ∧
      seqs.length = hds.length ∧ seqs.length ≤ 5000 ∧
      ∀ pr ∈ seqs.zip hds,
        pr ∈ (columnFiltered (gapFilteredSeqs [['A', 'C'], ['A', 'C']] (1 / 2)) (1 / 2)).zip
          (gapFilteredHdrs [['A', 'C'], ['A', 'C']]
            ((none : Option (List String)).getD
              (defaultHeaders ([['A', 'C'], ['A', 'C']] : List (List Char)).length))
            (1 / 2))) :=
  ⟨⟨by decide, by norm_num +decide [gapFilteredSeqs, gapKeptIdx, List.range_succ]⟩,
    c2_filter_returns_headers [['A', 'C'], ['A', 'C']] none (1 / 2) (4 / 5) 5000
      (by decide) (by norm_num +decide [gapFilteredSeqs, gapKeptIdx, List.range_succ])⟩

/-- Counterexample for C2 as stated: on two identical gap-free rows the second
component of the returned pair is the header list `["seq_0", "seq_1"]`, while
the final normalized weight vector (which the claim says is returned) is
`[1/2, 1/2]`. -/
theorem c2_counterexample :
    filter_rna_msa [['A', 'C'], ['A', 'C']] none (1 / 2) (4 / 5) 5000 =
      some ([['A', 'C'], ['A', 'C']], ["seq_0", "seq_1"]) ∧
    calculate_sequence_weights
        (columnFiltered (gapFilteredSeqs [['A', 'C'], ['A', 'C']] (1 / 2)) (1 / 2))
        (4 / 5) = [1 / 2, 1 / 2] := by
  have hps : pairSimilar ['A', 'C'] ['A', 'C'] (4 / 5) = true := by
    norm_num +decide [pairSimilar, List.range_succ]
  have h0 : similarCount [['A', 'C'], ['A', 'C']] (4 / 5) 0 = 1 := by
    simp +decide [similarCount, List.range_succ, hps]
  have h1 : similarCount [['A', 'C'], ['A', 'C']] (4 / 5) 1 = 1 := by
    simp +decide [similarCount, List.range_succ, hps]
  have hw : calculate_sequence_weights [['A', 'C'], ['A', 'C']] (4 / 5) = [1 / 2, 1 / 2] := by
    norm_num [calculate_sequence_weights, List.range_succ, h0, h1]
    intro h
    simp at h
  have hkept : gapKeptIdx [['A', 'C'], ['A', 'C']] (1 / 2) = [0, 1] := by
    norm_num +decide [gapKeptIdx, List.range_succ]
  have hgf : gapFilteredSeqs [['A', 'C'], ['A', 'C']] (1 / 2) = [['A', 'C'], ['A', 'C']] := by
    simp only [gapFilteredSeqs, hkept]
    decide
  have hcols : keepColumns [['A', 'C'], ['A', 'C']] (1 / 2) = [0, 1] := by
    norm_num +decide [keepColumns, List.range_succ]
  have hcf : columnFiltered [['A', 'C'], ['A', 'C']] (1 / 2) = [['A', 'C'], ['A', 'C']] := by
    simp only [columnFiltered, hcols]
    decide
  constructor
  · norm_num [filter_rna_msa, gapFilteredSeqs, gapFilteredHdrs, hkept, hcf, hw,
      defaultHeaders, List.range_succ]
    refine ⟨by simp, by decide, by decide⟩
  · rw [hgf, hcf, hw]

end RnaMI
